import Mathlib

/-!
Verification of the veisku document-query core: a shallow embedding of the
metadata extractor (doc.rs), the matcher engine and selection engine
(query.rs), and the criterion parser (cfg.rs), with theorems checking the
natural-language specification against the code.

Byte streams are modelled as lists of naturals (one per byte); a reader in
the sense of the Rust Read trait is modelled as a list of nonempty segments,
each read call delivering a prefix of the front segment.  External library
functions (file opening, UTF-8 decoding plus YAML parsing, path stem
extraction, compiled regexes) are parameters of the embedding.
-/

/-- Errors are opaque messages (anyhow::Error is an opaque boxed error). -/
abbrev Err := String

/-- YAML values as produced by the metadata parser (scalars, sequences,
mappings). Mirrors the variant set relevant to the matcher engine. -/
inductive Yaml where
  | null
  | string (s : String)
  | array (xs : List Yaml)
  | hash (entries : List (Yaml × Yaml))
  | boolean (b : Bool)
  | number (n : Int)
deriving Repr

/-- A compiled regex, abstracted by its language: `accepts s` says the
pattern matches the entire string `s` (anchored at both ends). -/
structure RustRegex where
  accepts : String → Bool

/-- Rust's regex `is_match`: true iff the pattern matches anywhere in the
haystack, i.e. some contiguous substring is accepted. -/
def RustRegex.is_match (r : RustRegex) (s : String) : Bool :=
  s.toList.tails.any fun t => t.inits.any fun l => r.accepts (String.mk l)

/-- The `MetaOp` enum from query.rs. -/
inductive MetaOp where
  | eq (rhs : String)
  | regex (r : RustRegex)

/-- The closure folded over array elements in `MetaOp::matches`, taking the
maximum under the ordering some true > some false > none. -/
def triFold : Option Bool → Option Bool → Option Bool
  | some true, _ => some true
  | _, some true => some true
  | some false, _ => some false
  | _, some false => some false
  | none, none => none

mutual

/-- `MetaOp::matches` from query.rs: tri-state comparison of an operation
against a YAML value (`none` means uncomparable). -/
def MetaOp.matches (op : MetaOp) : Yaml → Option Bool
  | .string st =>
    some (match op with
          | .eq rhs => st == rhs
          | .regex r => r.is_match st)
  | .array xs =>
    if xs.isEmpty then some false
    else MetaOp.foldMatches op xs none
  | .null => some false
  | .hash _ => none
  | .boolean _ => none
  | .number _ => none

/-- The fold `array.iter().map(matches).fold(None, triFold)` from
`MetaOp::matches`. -/
def MetaOp.foldMatches (op : MetaOp) : List Yaml → Option Bool → Option Bool
  | [], acc => acc
  | x :: rest, acc => MetaOp.foldMatches op rest (triFold acc (MetaOp.matches op x))

end

/-!
## The streaming metadata extractor (doc.rs)
-/

/-- One call to Read::read with a buffer of size n on a segmented stream:
deliver up to n bytes from the front segment, keeping the unconsumed rest. -/
def read_upto (n : Nat) : List (List Nat) → List Nat × List (List Nat)
  | [] => ([], [])
  | seg :: rest =>
    (seg.take n, if seg.length ≤ n then rest else seg.drop n :: rest)

/-- Read::read_exact for n bytes: repeated reads until the buffer is full;
end of stream before n bytes yields none (UnexpectedEof). -/
def read_exact : Nat → List (List Nat) → Option (List Nat × List (List Nat))
  | 0, segs => some ([], segs)
  | n + 1, segs =>
    match h : read_upto (n + 1) segs with
    | ([], _) => none
    | (b :: bs, rest) =>
      match read_exact (n - bs.length) rest with
      | none => none
      | some (bs2, rest2) => some (b :: bs ++ bs2, rest2)
termination_by n _ => n
decreasing_by omega

/-- First index at which sep occurs as a complete contiguous window of the
list, mirroring windows(len).enumerate().find on a byte slice. -/
def window_find (sep : List Nat) : List Nat → Option Nat
  | [] => if sep = [] then some 0 else none
  | a :: l =>
    if (a :: l).take sep.length = sep then some 0
    else (window_find sep l).map (· + 1)

/-- The munch loop of read_md_preamble: accumulate fixed-size reads into
pre, searching each time only from sep2.length - 1 bytes before the end of
the previously scanned prefix; none when end of stream arrives first. -/
def munch (sep2 : List Nat) (pre : List Nat) (segs : List (List Nat)) :
    Option (List Nat) :=
  match h : read_upto 4096 segs with
  | ([], _) => none
  | (b :: bs, rest) =>
    let search_start := pre.length - (sep2.length - 1)
    let pre2 := pre ++ b :: bs
    match window_find sep2 (pre2.drop search_start) with
    | some i => some (pre2.take (search_start + i))
    | none => munch sep2 pre2 rest
termination_by (segs.map List.length).sum
decreasing_by
  rcases segs with _ | ⟨seg, rest0⟩
  · simp [read_upto] at h
  · simp only [read_upto] at h
    have hne : seg ≠ [] := by
      intro e
      rw [e] at h
      simp at h
    split at h
    · obtain ⟨h1, h2⟩ := Prod.mk.injEq .. ▸ h
      subst h2
      have : 1 ≤ seg.length := by
        cases seg
        · exact absurd rfl hne
        · simp
      simp only [List.map_cons, List.sum_cons]
      omega
    · obtain ⟨h1, h2⟩ := Prod.mk.injEq .. ▸ h
      subst h2
      rename_i hlen
      simp only [List.map_cons, List.sum_cons, List.length_drop]
      omega

/-- The three accepted delimiter pairs, in the order doc.rs lists them
(each byte written as its numeric value; 45 is the dash, 10 newline, 13
carriage return). -/
def separators : List (List Nat × List Nat) :=
  [([45, 45, 45, 13, 10], [13, 10, 45, 45, 45, 13, 10]),
   ([45, 45, 45, 10], [10, 45, 45, 45, 10]),
   ([45, 45, 45, 13], [13, 45, 45, 45, 13])]

/-- read_md_preamble from doc.rs over a segmented byte stream.  The
parameter parse models str::from_utf8 followed by serde_yaml::from_str
applied to the raw preamble bytes (an Encoding or MetadataSyntax error in
either step is a hard failure). -/
def read_md_preamble (parse : List Nat → Except Err Yaml)
    (segs : List (List Nat)) : Except Err (Option Yaml) :=
  match read_exact 5 segs with
  | none => .ok none
  | some (first5, rest) =>
    match separators.find? (fun p => p.1.isPrefixOf first5) with
    | none => .ok none
    | some (sep1, sep2) =>
      match munch sep2 (first5.drop sep1.length) rest with
      | none => .ok none
      | some pre => (parse pre).map some

/-- Reference form of the extractor over the flat byte sequence: what
read_md_preamble computes, independent of how the stream is chunked. -/
def read_md_preamble_pure (parse : List Nat → Except Err Yaml)
    (bytes : List Nat) : Except Err (Option Yaml) :=
  if bytes.length < 5 then .ok none
  else
    match separators.find? (fun p => p.1.isPrefixOf (bytes.take 5)) with
    | none => .ok none
    | some (sep1, sep2) =>
      match window_find sep2 (bytes.drop sep1.length) with
      | none => .ok none
      | some j => (parse ((bytes.drop sep1.length).take j)).map some

/-!
## Document handles and lazy metadata (doc.rs)
-/

/-- DocRead from doc.rs: a path plus the memoized metadata slot. -/
structure DocRead where
  path : String
  meta : Option Yaml

/-- DocRead::new. -/
def DocRead.new (path : String) : DocRead := ⟨path, none⟩

/-- The external environment: opening a file by path yields its byte stream
(as delivered by the operating system in segments), parse models UTF-8
decoding plus YAML parsing, and fileStem models Path::file_stem composed
with to_str. -/
structure Env where
  openFile : String → Except Err (List (List Nat))
  parse : List Nat → Except Err Yaml
  fileStem : String → Option String

/-- DocRead::ensure_meta: memoized metadata fetch.  The third component
counts how many file reads this call performed (0 or 1). -/
def DocRead.ensure_meta (env : Env) (doc : DocRead) :
    Except Err Yaml × DocRead × Nat :=
  match doc.meta with
  | some m => (.ok m, doc, 0)
  | none =>
    match env.openFile doc.path with
    | .error e => (.error e, doc, 1)
    | .ok segs =>
      match read_md_preamble env.parse segs with
      | .error e => (.error e, doc, 1)
      | .ok v =>
        let m := v.getD Yaml.null
        (.ok m, { doc with meta := some m }, 1)

/-!
## The matcher engine (query.rs)
-/

/-- Lookup of a string key in a YAML mapping's entry list (the Index
implementation used by the Meta matcher looks keys up as string values). -/
def yamlLookup (key : String) : List (Yaml × Yaml) → Option Yaml
  | [] => none
  | (Yaml.string s, v) :: rest => if s == key then some v else yamlLookup key rest
  | _ :: rest => yamlLookup key rest

/-- Indexing a YAML value by a string key: a missing key, or a value that
is not a mapping, yields the null value. -/
def yamlIndex (v : Yaml) (key : String) : Yaml :=
  match v with
  | .hash entries => (yamlLookup key entries).getD .null
  | _ => .null

/-- The closed set of matcher variants from query.rs (the dyn Matcher
trait objects: Always, Never, Negate, NameRegex, SmartNameExact,
SmartNamePrefix, Meta). -/
inductive Matcher where
  | always
  | never
  | negate (m : Matcher)
  | nameRegex (r : RustRegex)
  | smartNameExact (pattern : String)
  | smartNamePrefix (pattern : String)
  | meta (key : String) (op : MetaOp)

/-- Matcher::matches for each variant.  Takes and returns the document
because the Meta variant may load and memoize metadata through the mutable
reference; errors from that load propagate. -/
def Matcher.matches (env : Env) : Matcher → DocRead → Except Err (Bool × DocRead)
  | .always, doc => .ok (true, doc)
  | .never, doc => .ok (false, doc)
  | .negate m, doc =>
    match Matcher.matches env m doc with
    | .ok (b, d) => .ok (!b, d)
    | .error e => .error e
  | .nameRegex r, doc =>
    match env.fileStem doc.path with
    | some stem => .ok (r.is_match stem, doc)
    | none => .ok (false, doc)
  | .smartNameExact p, doc =>
    match env.fileStem doc.path with
    | some stem => .ok (stem == p, doc)
    | none => .ok (false, doc)
  | .smartNamePrefix p, doc =>
    match env.fileStem doc.path with
    | some stem => .ok (List.isPrefixOf p.toList stem.toList, doc)
    | none => .ok (false, doc)
  | .meta key op, doc =>
    if key == "path" then
      match op.matches (Yaml.string doc.path) with
      | some x => .ok (x, doc)
      | none => .ok (false, doc)
    else
      match DocRead.ensure_meta env doc with
      | (.ok m, doc2, _) =>
        match op.matches (yamlIndex m key) with
        | some x => .ok (x, doc2)
        | none => .ok (false, doc2)
      | (.error e, _, _) => .error e

/-!
## The selection engine (query.rs)
-/

/-- The compiled Query: an optional smart-name slot plus the ordered
matcher list. -/
structure Query where
  smart_name : Option String
  matchers : List Matcher

/-- The smart-name matcher chosen by select_all for a given phase. -/
def smart_name_matcher (q : Query) (phase : Nat) : Matcher :=
  match q.smart_name, phase with
  | some sn, 0 => .smartNameExact sn
  | some sn, 1 => .smartNamePrefix sn
  | none, 0 => .always
  | none, _ => .never
  | some _, _ => .never

/-- fn apply_matcher from select_all: thread one matcher over the per-doc
accumulator, dropping the document on false and keeping errors. -/
def apply_matcher (env : Env) (acc : Option (Except Err DocRead))
    (m : Matcher) : Option (Except Err DocRead) :=
  match acc with
  | some (.ok doc) =>
    match m.matches env doc with
    | .ok (true, doc2) => some (.ok doc2)
    | .ok (false, _) => none
    | .error e => some (.error e)
  | x => x

/-- Per-document pipeline of select_all: the smart-name matcher first,
then every compiled matcher in list order. -/
def eval_doc (env : Env) (smart : Matcher) (ms : List Matcher)
    (x : Except Err DocRead) : Option (Except Err DocRead) :=
  ms.foldl (fun acc m => apply_matcher env acc m)
    (apply_matcher env (some x) smart)

/-- One phase of select_all: filter the whole enumeration through the
per-document pipeline for that phase. -/
def run_phase (env : Env) (q : Query) (phase : Nat)
    (docs : List (Except Err DocRead)) : List (Except Err DocRead) :=
  docs.filterMap (eval_doc env (smart_name_matcher q phase) q.matchers)

/-- select_all from query.rs: run phase 0 over the entire enumeration;
if and only if it produced nothing, rerun the enumeration in phase 1. -/
def select_all (env : Env) (q : Query) (docs : List (Except Err DocRead)) :
    List (Except Err DocRead) :=
  let p0 := run_phase env q 0 docs
  if p0.isEmpty then run_phase env q 1 docs else p0

/-- SelectOneError from query.rs. -/
inductive SelectOneError where
  | empty
  | ambiguous (candidates : List DocRead) (truncated : Bool)
  | misc (e : Err)

/-- The constant num_candidates_to_display from select_one. -/
def num_candidates_to_display : Nat := 10

/-- The tail of select_one once ambiguity is detected: compute the
truncated flag and pop the overflow candidate. -/
def ambiguous_result (cands : List DocRead) : Except SelectOneError DocRead :=
  let truncated := cands.length == num_candidates_to_display + 1
  .error (.ambiguous (if truncated then cands.dropLast else cands) truncated)

/-- The candidate-collection loop of select_one: up to n further items,
stopping at the end of the sequence and short-circuiting on errors. -/
def collect_more (cands : List DocRead) :
    Nat → List (Except Err DocRead) → Except SelectOneError DocRead
  | 0, _ => ambiguous_result cands
  | _ + 1, [] => ambiguous_result cands
  | _ + 1, .error e :: _ => .error (.misc e)
  | n + 1, .ok x :: rest => collect_more (cands ++ [x]) n rest

/-- select_one from query.rs: singularity check plus bounded ambiguity
reporting over the select_all sequence. -/
def select_one (env : Env) (q : Query) (docs : List (Except Err DocRead)) :
    Except SelectOneError DocRead :=
  match select_all env q docs with
  | [] => .error .empty
  | .error e :: _ => .error (.misc e)
  | .ok first :: rest =>
    match rest with
    | [] => .ok first
    | .error e :: _ => .error (.misc e)
    | .ok second :: rest2 =>
      collect_more [first, second] (num_candidates_to_display - 1) rest2

/-!
## The criterion parser (cfg.rs)
-/

/-- SimpleCriterion from cfg.rs (patterns kept as raw text; regex
compilation happens later in Query::from_opt). -/
inductive SimpleCriterion where
  | nameRegex (s : List Char)
  | metaEq (key value : List Char)
  | metaRegex (key s : List Char)
deriving DecidableEq

/-- Criterion from cfg.rs. -/
inductive Criterion where
  | nameSmart (s : List Char)
  | simple (negate : Bool) (sc : SimpleCriterion)
deriving DecidableEq

/-- str::strip_prefix for a literal pattern. -/
def stripPfx (p s : List Char) : Option (List Char) :=
  if p.isPrefixOf s then some (s.drop p.length) else none

/-- str::strip_suffix for a literal pattern. -/
def stripSfx (p s : List Char) : Option (List Char) :=
  if p.isSuffixOf s then some (s.take (s.length - p.length)) else none

/-- The slash-wrapping test used twice by the parser:
strip_prefix of a slash chained with strip_suffix of a slash. -/
def slashWrap (s : List Char) : Option (List Char) :=
  (stripPfx ['/'] s).bind (stripSfx ['/'])

/-- FromStr for Criterion from cfg.rs, rule for rule: strip an optional
leading bang, then try slash-wrapped regex, reject leading equals, split
at the first colon, and lastly fall back to the smart-name term. -/
def criterion_from_str (tok : List Char) : Except Err Criterion :=
  let np : Bool × List Char :=
    match stripPfx ['!'] tok with
    | some s2 => (true, s2)
    | none => (false, tok)
  let negate := np.1
  let s := np.2
  match slashWrap s with
  | some inner => .ok (.simple negate (.nameRegex inner))
  | none =>
    if s.head? = some '=' then
      .error "`=EXPRESSION` syntax is not implemented"
    else
      match s.findIdx? (· = ':') with
      | some i =>
        let key := s.take i
        let value := s.drop (i + 1)
        if value.head? = some '<' ∨ value.head? = some '>' then
          .error "Unimplemented syntax"
        else
          match slashWrap value with
          | some inner => .ok (.simple negate (.metaRegex key inner))
          | none => .ok (.simple negate (.metaEq key value))
      | none =>
        if negate then .error "Smart name search cannot be used with negation"
        else .ok (.nameSmart s)

/-!
## Lemmas on the tri-state fold
-/

theorem triFold_eq_some_true (a b : Option Bool) :
    triFold a b = some true ↔ a = some true ∨ b = some true := by
  rcases a with _ | _ | _ <;> rcases b with _ | _ | _ <;> simp [triFold]

theorem triFold_eq_none (a b : Option Bool) :
    triFold a b = none ↔ a = none ∧ b = none := by
  rcases a with _ | _ | _ <;> rcases b with _ | _ | _ <;> simp [triFold]

theorem foldMatches_eq_some_true (op : MetaOp) (xs : List Yaml) (acc : Option Bool) :
    MetaOp.foldMatches op xs acc = some true ↔
      acc = some true ∨ ∃ e ∈ xs, MetaOp.matches op e = some true := by
  induction xs generalizing acc with
  | nil => simp [MetaOp.foldMatches]
  | cons x rest ih =>
    rw [MetaOp.foldMatches, ih, triFold_eq_some_true]
    simp only [List.mem_cons]
    constructor
    · rintro (⟨h | h⟩ | ⟨e, he, h⟩)
      · exact Or.inl h
      · exact Or.inr ⟨x, Or.inl rfl, h⟩
      · exact Or.inr ⟨e, Or.inr he, h⟩
    · rintro (h | ⟨e, (rfl | he), h⟩)
      · exact Or.inl (Or.inl h)
      · exact Or.inl (Or.inr h)
      · exact Or.inr ⟨e, he, h⟩

theorem foldMatches_eq_none (op : MetaOp) (xs : List Yaml) (acc : Option Bool) :
    MetaOp.foldMatches op xs acc = none ↔
      acc = none ∧ ∀ e ∈ xs, MetaOp.matches op e = none := by
  induction xs generalizing acc with
  | nil => simp [MetaOp.foldMatches]
  | cons x rest ih =>
    rw [MetaOp.foldMatches, ih, triFold_eq_none]
    constructor
    · rintro ⟨⟨h1, h2⟩, h3⟩
      refine ⟨h1, ?_⟩
      intro e he
      rcases List.mem_cons.1 he with rfl | he2
      · exact h2
      · exact h3 e he2
    · rintro ⟨h1, h2⟩
      exact ⟨⟨h1, h2 x (List.mem_cons_self x rest)⟩,
             fun e he => h2 e (List.mem_cons_of_mem x he)⟩

theorem foldMatches_eq_some_false (op : MetaOp) (xs : List Yaml) (acc : Option Bool) :
    MetaOp.foldMatches op xs acc = some false ↔
      (acc ≠ some true ∧ ∀ e ∈ xs, MetaOp.matches op e ≠ some true) ∧
      (acc = some false ∨ ∃ e ∈ xs, MetaOp.matches op e = some false) := by
  constructor
  · intro hv
    have hnt : ¬ (acc = some true ∨ ∃ e ∈ xs, MetaOp.matches op e = some true) := by
      rw [← foldMatches_eq_some_true op xs acc, hv]
      simp
    have hnn : ¬ (acc = none ∧ ∀ e ∈ xs, MetaOp.matches op e = none) := by
      rw [← foldMatches_eq_none op xs acc, hv]
      simp
    push_neg at hnt
    refine ⟨⟨hnt.1, hnt.2⟩, ?_⟩
    rcases acc with _ | b
    · push_neg at hnn
      rcases hnn rfl with ⟨e, he, hne⟩
      rcases hme : MetaOp.matches op e with _ | b2
      · exact absurd hme hne
      · rcases b2 with _ | _
        · exact Or.inr ⟨e, he, hme⟩
        · exact absurd hme (hnt.2 e he)
    · rcases b with _ | _
      · exact Or.inl rfl
      · exact absurd rfl hnt.1
  · rintro ⟨⟨ha, he⟩, hor⟩
    rcases hv : MetaOp.foldMatches op xs acc with _ | b
    · rw [foldMatches_eq_none] at hv
      rcases hor with h | ⟨e, hee, h⟩
      · rw [hv.1] at h
        exact absurd h (by simp)
      · rw [hv.2 e hee] at h
        exact absurd h (by simp)
    · rcases b with _ | _
      · rfl
      · rw [foldMatches_eq_some_true] at hv
        rcases hv with h | ⟨e, hee, h⟩
        · exact absurd h ha
        · exact absurd h (he e hee)

/-- C2: for a Meta matcher operation (Eq or Regex), a string value compares
definitely (Eq is string equality, Regex is a pattern match); a null value
compares false; a nonempty sequence is folded element-wise with priority
true over false over uncomparable; mappings, numbers and booleans are
uncomparable; and an uncomparable final outcome of the Meta matcher is not
an error but Ok false. -/
theorem C2_meta_tristate_matching :
    ∀ (op : MetaOp) (rhs st : String) (r : RustRegex) (b : Bool) (n : Int)
      (entries : List (Yaml × Yaml)) (y : Yaml) (ys : List Yaml)
      (env : Env) (p : String),
      (MetaOp.eq rhs).matches (.string st) = some (st == rhs)
      ∧ (MetaOp.regex r).matches (.string st) = some (r.is_match st)
      ∧ op.matches .null = some false
      ∧ op.matches (.boolean b) = none
      ∧ op.matches (.number n) = none
      ∧ op.matches (.hash entries) = none
      ∧ (op.matches (.array (y :: ys)) = some true ↔
           ∃ e ∈ y :: ys, op.matches e = some true)
      ∧ (op.matches (.array (y :: ys)) = some false ↔
           (∀ e ∈ y :: ys, op.matches e ≠ some true) ∧
           ∃ e ∈ y :: ys, op.matches e = some false)
      ∧ (op.matches (.array (y :: ys)) = none ↔
           ∀ e ∈ y :: ys, op.matches e = none)
      ∧ op.matches (yamlIndex (.hash [(.string "k", .boolean b)]) "k") = none
      ∧ Matcher.matches env (.meta "k" op) ⟨p, some (.hash [(.string "k", .boolean b)])⟩ =
          .ok (false, ⟨p, some (.hash [(.string "k", .boolean b)])⟩) := by
  intro op rhs st r b n entries y ys env p
  have harr : op.matches (.array (y :: ys)) = MetaOp.foldMatches op (y :: ys) none := by
    rw [MetaOp.matches]
    simp
  have hunc : op.matches (yamlIndex (.hash [(.string "k", .boolean b)]) "k") = none := by
    have : yamlIndex (.hash [(.string "k", .boolean b)]) "k" = .boolean b := by
      simp [yamlIndex, yamlLookup]
    rw [this, MetaOp.matches]
  refine ⟨rfl, rfl, by rw [MetaOp.matches], by rw [MetaOp.matches],
          by rw [MetaOp.matches], by rw [MetaOp.matches], ?_, ?_, ?_, hunc, ?_⟩
  · rw [harr, foldMatches_eq_some_true]
    simp
  · rw [harr, foldMatches_eq_some_false]
    simp
  · rw [harr, foldMatches_eq_none]
    simp
  · rw [Matcher.matches]
    simp only [show (("k" == "path") = false) from rfl, Bool.false_eq_true, if_false,
               DocRead.ensure_meta]
    rw [hunc]

/-!
## C8: regex matching on string metadata values
-/

/-- An environment whose external operations are never consulted, for
matcher evaluations that only touch already-memoized metadata. -/
def envInert : Env :=
  ⟨fun _ => .error "unused", fun _ => .error "unused", fun _ => none⟩

/-- A compiled regex whose language is exactly the one-letter string a,
standing for the pattern a anchored on both sides. -/
def regexOnlyA : RustRegex := ⟨fun s => s == "a"⟩

/-- A document whose tag field holds the string bab, with metadata
already memoized. -/
def docBab : DocRead := ⟨"d.md", some (.hash [(.string "t", .string "bab")])⟩

/-- C8 counterexample: with a regex whose language contains only the
string a, evaluated against the value bab, the Meta matcher answers true
even though the pattern does not match the whole string, because
regex is_match searches for a match anywhere in the haystack. -/
theorem C8_counterexample_substring_hit :
    Matcher.matches envInert (.meta "t" (.regex regexOnlyA)) docBab
      = .ok (true, docBab)
    ∧ regexOnlyA.accepts "bab" = false := by
  constructor
  · rw [Matcher.matches]
    simp only [show (("t" == "path") = false) from rfl, Bool.false_eq_true, if_false,
               DocRead.ensure_meta, docBab]
    have hidx : yamlIndex (.hash [(.string "t", .string "bab")]) "t" = .string "bab" := by
      simp [yamlIndex, yamlLookup]
    rw [hidx, MetaOp.matches]
    have : regexOnlyA.is_match "bab" = true := by decide
    rw [this]
  · decide

/-- C8 amended: for a Meta matcher with a Regex operation on a string
value, the matcher returns true if and only if the compiled pattern
matches anywhere in the string, i.e. some contiguous substring of it is in
the pattern's language (Rust regex is_match semantics), not only when the
whole string is. -/
theorem C8_regex_is_substring_search (env : Env) (p k s : String)
    (r : RustRegex) (hk : k ≠ "path") :
    Matcher.matches env (.meta k (.regex r)) ⟨p, some (.hash [(.string k, .string s)])⟩ =
      .ok (r.is_match s, ⟨p, some (.hash [(.string k, .string s)])⟩)
    ∧ (r.is_match s = true ↔ ∃ l1 l2 l3 : List Char,
         s.toList = l1 ++ l2 ++ l3 ∧ r.accepts (String.mk l2) = true) := by
  constructor
  · rw [Matcher.matches]
    have hb : (k == "path") = false := by
      simp [hk]
    simp only [hb, Bool.false_eq_true, if_false, DocRead.ensure_meta]
    have hidx : yamlIndex (.hash [(.string k, .string s)]) k = .string s := by
      simp [yamlIndex, yamlLookup]
    rw [hidx, MetaOp.matches]
  · rw [RustRegex.is_match]
    simp only [List.any_eq_true]
    constructor
    · rintro ⟨t, ht, l, hl, hacc⟩
      rw [List.mem_tails] at ht
      rw [List.mem_inits] at hl
      obtain ⟨l1, h1⟩ := ht
      obtain ⟨l3, h3⟩ := hl
      refine ⟨l1, l, l3, ?_, hacc⟩
      rw [List.append_assoc, h3, h1]
    · rintro ⟨l1, l2, l3, hs, hacc⟩
      refine ⟨l2 ++ l3, ?_, l2, ?_, hacc⟩
      · rw [List.mem_tails]
        exact ⟨l1, by rw [← List.append_assoc, ← hs]⟩
      · rw [List.mem_inits]
        exact ⟨l3, rfl⟩

/-- C8 witness: the amended statement at the counterexample's inputs. -/
theorem C8_regex_is_substring_search_witness :
    Matcher.matches envInert (.meta "t" (.regex regexOnlyA))
        ⟨"d.md", some (.hash [(.string "t", .string "bab")])⟩ =
      .ok (regexOnlyA.is_match "bab",
           ⟨"d.md", some (.hash [(.string "t", .string "bab")])⟩)
    ∧ (regexOnlyA.is_match "bab" = true ↔ ∃ l1 l2 l3 : List Char,
         ("bab" : String).toList = l1 ++ l2 ++ l3 ∧ regexOnlyA.accepts (String.mk l2) = true) :=
  C8_regex_is_substring_search envInert "d.md" "t" "bab" regexOnlyA (by decide)

/-!
## C9 and C10: memoization of the metadata slot
-/

theorem ensure_meta_some (env : Env) (p : String) (m : Yaml) :
    DocRead.ensure_meta env ⟨p, some m⟩ = (.ok m, ⟨p, some m⟩, 0) := rfl

theorem ensure_meta_none_eq (env : Env) (p : String) :
    DocRead.ensure_meta env ⟨p, none⟩ =
      match env.openFile p with
      | .error e => (.error e, ⟨p, none⟩, 1)
      | .ok segs =>
        match read_md_preamble env.parse segs with
        | .error e => (.error e, ⟨p, none⟩, 1)
        | .ok v => (.ok (v.getD Yaml.null), ⟨p, some (v.getD Yaml.null)⟩, 1) := rfl

/-- C9: a fresh handle's metadata slot is unset, and once ensure_meta has
returned successfully, every later call returns the identical value and
performs zero file reads (the read counter of the repeated call is 0). -/
theorem C9_ensure_meta_memoized (env : Env) (doc : DocRead) (m : Yaml)
    (doc2 : DocRead) (n : Nat)
    (h : DocRead.ensure_meta env doc = (.ok m, doc2, n)) :
    DocRead.ensure_meta env doc2 = (.ok m, doc2, 0)
    ∧ doc2.meta = some m
    ∧ ∀ p : String, (DocRead.new p).meta = none := by
  rcases doc with ⟨path, meta⟩
  rcases meta with _ | m0
  · rw [ensure_meta_none_eq] at h
    rcases ho : env.openFile path with e2 | segs
    all_goals simp only [ho] at h
    · simp at h
    · rcases hr : read_md_preamble env.parse segs with e2 | v
      all_goals simp only [hr] at h
      · simp at h
      · simp only [Prod.mk.injEq, Except.ok.injEq] at h
        obtain ⟨h1, h2, h3⟩ := h
        subst h2
        subst h1
        exact ⟨ensure_meta_some env path _, rfl, fun p => rfl⟩
  · rw [ensure_meta_some] at h
    simp only [Prod.mk.injEq, Except.ok.injEq] at h
    obtain ⟨h1, h2, h3⟩ := h
    subst h2
    subst h1
    exact ⟨ensure_meta_some env path _, rfl, fun p => rfl⟩

/-- C9 witness: a concrete run in which the first call reads an empty
stream (no metadata block, so the null value is memoized) and the second
call reads nothing. -/
theorem C9_ensure_meta_memoized_witness :
    DocRead.ensure_meta ⟨fun _ => .ok [], fun _ => .error "x", fun _ => none⟩
        ⟨"p.md", some Yaml.null⟩ = (.ok Yaml.null, ⟨"p.md", some Yaml.null⟩, 0)
    ∧ (⟨"p.md", some Yaml.null⟩ : DocRead).meta = some Yaml.null
    ∧ ∀ p : String, (DocRead.new p).meta = none :=
  C9_ensure_meta_memoized ⟨fun _ => .ok [], fun _ => .error "x", fun _ => none⟩
    ⟨"p.md", none⟩ Yaml.null ⟨"p.md", some Yaml.null⟩ 1
    (by
      rw [ensure_meta_none_eq]
      simp [read_md_preamble, read_exact, read_upto])

/-- C10: when ensure_meta fails, the handle is returned unchanged with the
metadata slot still unset (the error is not cached), so any later call
attempts the file read again (its read counter is 1, for every
environment the retry runs against). -/
theorem C10_ensure_meta_error_not_cached (env : Env) (doc : DocRead)
    (e : Err) (doc2 : DocRead) (n : Nat)
    (h : DocRead.ensure_meta env doc = (.error e, doc2, n)) :
    doc2 = doc ∧ doc2.meta = none
    ∧ ∀ env2 : Env, (DocRead.ensure_meta env2 doc2).2.2 = 1 := by
  rcases doc with ⟨path, meta⟩
  rcases meta with _ | m0
  · have hm : doc2 = ⟨path, none⟩ := by
      rw [ensure_meta_none_eq] at h
      rcases ho : env.openFile path with e2 | segs
      all_goals simp only [ho] at h
      · simp only [Prod.mk.injEq] at h
        exact h.2.1.symm
      · rcases hr : read_md_preamble env.parse segs with e2 | v
        all_goals simp only [hr] at h
        · simp only [Prod.mk.injEq] at h
          exact h.2.1.symm
        · simp at h
    subst hm
    refine ⟨rfl, rfl, fun env2 => ?_⟩
    rw [ensure_meta_none_eq]
    rcases ho : env2.openFile path with e2 | segs
    all_goals simp only [ho]
    rcases hr : read_md_preamble env2.parse segs with e2 | v
    all_goals simp only [hr]
  · rw [ensure_meta_some] at h
    simp at h

/-- C10 witness: a failing open leaves the slot unset and a retry against
any environment performs one read. -/
theorem C10_ensure_meta_error_not_cached_witness :
    (⟨"p.md", none⟩ : DocRead) = (⟨"p.md", none⟩ : DocRead)
    ∧ (⟨"p.md", none⟩ : DocRead).meta = none
    ∧ ∀ env2 : Env, (DocRead.ensure_meta env2 ⟨"p.md", none⟩).2.2 = 1 :=
  C10_ensure_meta_error_not_cached
    ⟨fun _ => .error "io", fun _ => .error "x", fun _ => none⟩
    ⟨"p.md", none⟩ "io" ⟨"p.md", none⟩ 1 (by rw [ensure_meta_none_eq])

/-!
## C1: phased smart-name fallback in select_all
-/

/-- C1: with the smart-name term set, phase 0 filters the entire
enumeration through an exact base-name matcher followed by all compiled
matchers in order, phase 1 does the same with a prefix matcher, the whole
enumeration is rerun in phase 1 exactly when phase 0 yields nothing, and
the returned sequence is one phase's output in its entirety. -/
theorem C1_select_all_phased_fallback (env : Env) (sn : String)
    (ms : List Matcher) (docs : List (Except Err DocRead)) :
    smart_name_matcher ⟨some sn, ms⟩ 0 = .smartNameExact sn
    ∧ smart_name_matcher ⟨some sn, ms⟩ 1 = .smartNamePrefix sn
    ∧ run_phase env ⟨some sn, ms⟩ 0 docs
        = docs.filterMap (eval_doc env (.smartNameExact sn) ms)
    ∧ run_phase env ⟨some sn, ms⟩ 1 docs
        = docs.filterMap (eval_doc env (.smartNamePrefix sn) ms)
    ∧ (∀ d : DocRead, Matcher.matches env (.smartNameExact sn) d
        = .ok (((env.fileStem d.path).map (· == sn)).getD false, d))
    ∧ (∀ d : DocRead, Matcher.matches env (.smartNamePrefix sn) d
        = .ok (((env.fileStem d.path).map
                  (fun st => List.isPrefixOf sn.toList st.toList)).getD false, d))
    ∧ (run_phase env ⟨some sn, ms⟩ 0 docs = []
        → select_all env ⟨some sn, ms⟩ docs = run_phase env ⟨some sn, ms⟩ 1 docs)
    ∧ (run_phase env ⟨some sn, ms⟩ 0 docs ≠ []
        → select_all env ⟨some sn, ms⟩ docs = run_phase env ⟨some sn, ms⟩ 0 docs)
    ∧ (select_all env ⟨some sn, ms⟩ docs = run_phase env ⟨some sn, ms⟩ 0 docs
       ∨ select_all env ⟨some sn, ms⟩ docs = run_phase env ⟨some sn, ms⟩ 1 docs) := by
  have hexact : ∀ d : DocRead, Matcher.matches env (.smartNameExact sn) d
      = .ok (((env.fileStem d.path).map (· == sn)).getD false, d) := by
    intro d
    rw [Matcher.matches]
    rcases h : env.fileStem d.path with _ | stem
    all_goals simp [h]
  have hpre : ∀ d : DocRead, Matcher.matches env (.smartNamePrefix sn) d
      = .ok (((env.fileStem d.path).map
                (fun st => List.isPrefixOf sn.toList st.toList)).getD false, d) := by
    intro d
    rw [Matcher.matches]
    rcases h : env.fileStem d.path with _ | stem
    all_goals simp [h]
  refine ⟨rfl, rfl, rfl, rfl, hexact, hpre, ?_, ?_, ?_⟩
  · intro h0
    rw [select_all, if_pos (List.isEmpty_iff.mpr h0)]
  · intro h0
    rw [select_all, if_neg (fun hemp => h0 (List.isEmpty_iff.mp hemp))]
  · by_cases h0 : run_phase env ⟨some sn, ms⟩ 0 docs = []
    · exact Or.inr (by rw [select_all, if_pos (List.isEmpty_iff.mpr h0)])
    · exact Or.inl (by rw [select_all, if_neg (fun hemp => h0 (List.isEmpty_iff.mp hemp))])

/-- Environment for the spec's phased-fallback example: two documents
whose base names are foo and foobar. -/
def envFoo : Env :=
  ⟨fun _ => .error "unused", fun _ => .error "unused",
   fun p => if p = "foo.md" then some "foo"
            else if p = "foobar.md" then some "foobar" else none⟩

/-- The enumeration for the spec's phased-fallback example. -/
def docsFoo : List (Except Err DocRead) :=
  [.ok ⟨"foo.md", none⟩, .ok ⟨"foobar.md", none⟩]

/-- C1 witness: smart name fo has no exact match, so the whole enumeration
is rerun with prefix matching and both documents are returned; smart name
foo has an exact match, so only it is returned and no fallback happens. -/
theorem C1_select_all_phased_fallback_witness :
    select_all envFoo ⟨some "fo", []⟩ docsFoo
      = [.ok ⟨"foo.md", none⟩, .ok ⟨"foobar.md", none⟩]
    ∧ select_all envFoo ⟨some "foo", []⟩ docsFoo = [.ok ⟨"foo.md", none⟩] := by
  constructor
  · have h := (C1_select_all_phased_fallback envFoo "fo" [] docsFoo).2.2.2.2.2.2.1
    rw [h rfl]
    rfl
  · have h := (C1_select_all_phased_fallback envFoo "foo" [] docsFoo).2.2.2.2.2.2.2.1
    rw [h (by intro hemp; exact absurd hemp (by simp [run_phase, docsFoo, eval_doc,
          smart_name_matcher, apply_matcher, Matcher.matches, envFoo]))]
    rfl

/-!
## C3: selection cardinality and bounded ambiguity reporting
-/

theorem collect_more_all_ok (n : Nat) (ds : List DocRead) (cands : List DocRead) :
    collect_more cands n (ds.map .ok) = ambiguous_result (cands ++ ds.take n) := by
  induction n generalizing cands ds with
  | zero => simp [collect_more]
  | succ k ih =>
    rcases ds with _ | ⟨d, rest⟩
    · simp [collect_more]
    · rw [List.map_cons, collect_more, ih, List.take_succ_cons]
      simp

theorem ambiguous_result_take11 (L : List DocRead) :
    ambiguous_result (L.take 11)
      = .error (.ambiguous (L.take 10) (decide (11 ≤ L.length))) := by
  simp only [ambiguous_result, num_candidates_to_display]
  by_cases h11 : 11 ≤ L.length
  · have hlen : (L.take 11).length = 11 := by
      rw [List.length_take]
      omega
    have htr : ((L.take 11).length == 10 + 1) = true := by
      rw [hlen]
      rfl
    have hdrop : (L.take 11).dropLast = L.take 10 := by
      rw [List.dropLast_eq_take, hlen, List.take_take]
      norm_num
    simp [htr, hdrop, h11]
  · have hlenle : L.length ≤ 10 := by omega
    have htk11 : L.take 11 = L := List.take_of_length_le (by omega)
    have htk10 : L.take 10 = L := List.take_of_length_le (by omega)
    have htr : ((L.take 11).length == 10 + 1) = false := by
      rw [htk11]
      rw [beq_eq_false_iff_ne]
      omega
    simp only [htr, htk11, htk10, Bool.false_eq_true, if_false]
    simp [h11]
    exact ⟨fun hh => absurd hh (by omega), by omega⟩

/-- C3: when select_all yields an error-free sequence ds of documents,
select_one answers Empty on zero documents, the document itself on one,
and on two or more an Ambiguous error whose candidate list is the first
min(length ds, 10) documents in sequence order, with the truncated flag
set exactly when an eleventh match existed. -/
theorem C3_select_one_cardinality (env : Env) (q : Query)
    (docs : List (Except Err DocRead)) (ds : List DocRead)
    (h : select_all env q docs = ds.map .ok) :
    (ds = [] → select_one env q docs = .error .empty)
    ∧ (∀ d, ds = [d] → select_one env q docs = .ok d)
    ∧ (2 ≤ ds.length →
        select_one env q docs
          = .error (.ambiguous (ds.take 10) (decide (11 ≤ ds.length)))
        ∧ (ds.take 10).length = min ds.length 10) := by
  rw [select_one, h]
  rcases ds with _ | ⟨d1, rest⟩
  · exact ⟨fun _ => rfl, fun d hd => by simp at hd, fun h2 => by simp at h2⟩
  · rcases rest with _ | ⟨d2, rest2⟩
    · refine ⟨fun hd => by simp at hd, ?_, fun h2 => by simp at h2⟩
      intro d hd
      simp only [List.cons.injEq] at hd
      rw [hd.1]
      rfl
    · refine ⟨fun hd => by simp at hd, fun d hd => by simp at hd, fun h2 => ?_⟩
      have hrun : collect_more [d1, d2] (num_candidates_to_display - 1) (rest2.map .ok)
          = ambiguous_result ((d1 :: d2 :: rest2).take 11) := by
        rw [collect_more_all_ok]
        congr 1
      rw [List.map_cons, List.map_cons]
      refine ⟨?_, by rw [List.length_take]; omega⟩
      show collect_more [d1, d2] (num_candidates_to_display - 1) (rest2.map .ok)
          = .error (.ambiguous ((d1 :: d2 :: rest2).take 10)
              (decide (11 ≤ (d1 :: d2 :: rest2).length)))
      rw [hrun, ambiguous_result_take11]

/-- Twelve documents, for the selection-cardinality example. -/
def dsTwelve : List DocRead :=
  [⟨"d01", none⟩, ⟨"d02", none⟩, ⟨"d03", none⟩, ⟨"d04", none⟩,
   ⟨"d05", none⟩, ⟨"d06", none⟩, ⟨"d07", none⟩, ⟨"d08", none⟩,
   ⟨"d09", none⟩, ⟨"d10", none⟩, ⟨"d11", none⟩, ⟨"d12", none⟩]

/-- C3 witness: twelve matches give Ambiguous with truncated set and
exactly the first ten candidates. -/
theorem C3_select_one_cardinality_witness :
    select_one envInert ⟨none, []⟩ (dsTwelve.map .ok)
      = .error (.ambiguous (dsTwelve.take 10) true)
    ∧ (dsTwelve.take 10).length = min dsTwelve.length 10 := by
  have h := (C3_select_one_cardinality envInert ⟨none, []⟩ (dsTwelve.map .ok)
    dsTwelve rfl).2.2 (by simp [dsTwelve])
  simpa using h

/-!
## Stream and window-search lemmas for the extractor
-/

/-- Well-formed reader: every pending segment is nonempty, so a read
returns zero bytes only at the true end of the stream. -/
def WFStream (segs : List (List Nat)) : Prop := ∀ s ∈ segs, s ≠ []

theorem read_upto_flatten (n : Nat) (segs : List (List Nat)) :
    segs.flatten = (read_upto n segs).1 ++ (read_upto n segs).2.flatten := by
  rcases segs with _ | ⟨seg, rest⟩
  · rfl
  · rw [read_upto]
    by_cases hl : seg.length ≤ n
    · simp [hl, List.take_of_length_le hl]
    · simp only [hl, if_false, List.flatten_cons]
      rw [← List.append_assoc, List.take_append_drop]

theorem read_upto_wf (n : Nat) (segs : List (List Nat)) (hwf : WFStream segs) :
    WFStream (read_upto n segs).2 := by
  rcases segs with _ | ⟨seg, rest⟩
  · intro s hs
    simp [read_upto] at hs
  · rw [read_upto]
    by_cases hl : seg.length ≤ n
    · simp only [hl, if_true]
      exact fun s hs => hwf s (List.mem_cons_of_mem seg hs)
    · simp only [hl, if_false]
      intro s hs
      rcases List.mem_cons.1 hs with rfl | hs2
      · intro he
        have := congrArg List.length he
        simp at this
        omega
      · exact hwf s (List.mem_cons_of_mem seg hs2)

theorem read_upto_fst_nonempty (n : Nat) (seg : List Nat) (rest : List (List Nat))
    (hwf : WFStream (seg :: rest)) (hn : 1 ≤ n) :
    (read_upto n (seg :: rest)).1 ≠ [] := by
  rw [read_upto]
  intro he
  simp only [List.take_eq_nil_iff] at he
  rcases he with he | he
  · omega
  · exact hwf seg (List.mem_cons_self ..) he

theorem read_upto_length_le (n : Nat) (segs : List (List Nat)) :
    (read_upto n segs).1.length ≤ n := by
  rcases segs with _ | ⟨seg, rest⟩ <;> simp [read_upto]

theorem read_exact_zero (segs : List (List Nat)) :
    read_exact 0 segs = some ([], segs) := by
  rw [read_exact.eq_1]

theorem read_exact_eof (n : Nat) (segs snd : List (List Nat))
    (h : read_upto (n + 1) segs = ([], snd)) :
    read_exact (n + 1) segs = none := by
  rw [read_exact.eq_2]
  split
  · rfl
  · rename_i b bs rest hru
    rw [h] at hru
    simp at hru

theorem read_exact_cons (n : Nat) (segs : List (List Nat)) (b : Nat)
    (bs : List Nat) (rest : List (List Nat))
    (h : read_upto (n + 1) segs = (b :: bs, rest)) :
    read_exact (n + 1) segs
      = match read_exact (n - bs.length) rest with
        | none => none
        | some (bs2, rest2) => some (b :: bs ++ bs2, rest2) := by
  rw [read_exact.eq_2]
  split
  · rename_i hru
    rw [h] at hru
    simp at hru
  · rename_i b2 bs2 rest2 hru
    rw [h] at hru
    simp only [Prod.mk.injEq, List.cons.injEq] at hru
    obtain ⟨⟨hb, hbs⟩, hrest⟩ := hru
    subst hb
    subst hbs
    subst hrest
    rfl

theorem read_exact_spec (n : Nat) (segs : List (List Nat)) (hwf : WFStream segs) :
    (segs.flatten.length < n → read_exact n segs = none)
    ∧ (n ≤ segs.flatten.length →
        ∃ rest, read_exact n segs = some (segs.flatten.take n, rest)
          ∧ rest.flatten = segs.flatten.drop n ∧ WFStream rest) := by
  induction n, segs using read_exact.induct with
  | case1 segs =>
    exact ⟨fun h0 => absurd h0 (by omega),
           fun _ => ⟨segs, read_exact_zero segs, by simp, hwf⟩⟩
  | case2 n segs snd h =>
    rcases segs with _ | ⟨seg, rest0⟩
    · refine ⟨fun _ => read_exact_eof n [] snd h, fun hge => ?_⟩
      simp at hge
    · exact absurd (congrArg Prod.fst h)
        (read_upto_fst_nonempty (n + 1) seg rest0 hwf (by omega))
  | case3 n segs b bs rest h hnone ih =>
    have hflat : segs.flatten = b :: (bs ++ rest.flatten) := by
      have hh := read_upto_flatten (n + 1) segs
      rw [h] at hh
      exact hh
    have hlen : segs.flatten.length = bs.length + 1 + rest.flatten.length := by
      rw [hflat]
      simp only [List.length_cons, List.length_append]
      omega
    have hwfr : WFStream rest := by
      have hh := read_upto_wf (n + 1) segs hwf
      rw [h] at hh
      exact hh
    have hbslen : bs.length ≤ n := by
      have hh := read_upto_length_le (n + 1) segs
      rw [h] at hh
      simp only [List.length_cons] at hh
      omega
    have ihk := ih hwfr
    rw [read_exact_cons n segs b bs rest h, hnone]
    constructor
    · intro _
      rfl
    · intro hge
      have hrge : n - bs.length ≤ rest.flatten.length := by omega
      obtain ⟨rest2, heq, _, _⟩ := ihk.2 hrge
      rw [heq] at hnone
      exact absurd hnone (by simp)
  | case4 n segs b bs rest h bs2 rest2 hsome ih =>
    have hflat : segs.flatten = b :: (bs ++ rest.flatten) := by
      have hh := read_upto_flatten (n + 1) segs
      rw [h] at hh
      exact hh
    have hlen : segs.flatten.length = bs.length + 1 + rest.flatten.length := by
      rw [hflat]
      simp only [List.length_cons, List.length_append]
      omega
    have hwfr : WFStream rest := by
      have hh := read_upto_wf (n + 1) segs hwf
      rw [h] at hh
      exact hh
    have hbslen : bs.length ≤ n := by
      have hh := read_upto_length_le (n + 1) segs
      rw [h] at hh
      simp only [List.length_cons] at hh
      omega
    have ihk := ih hwfr
    rw [read_exact_cons n segs b bs rest h, hsome]
    constructor
    · intro hlt
      have hrlt : rest.flatten.length < n - bs.length := by omega
      rw [ihk.1 hrlt] at hsome
      exact absurd hsome (by simp)
    · intro hge
      have hrge : n - bs.length ≤ rest.flatten.length := by omega
      obtain ⟨rest3, heq, hflat3, hwf3⟩ := ihk.2 hrge
      rw [heq] at hsome
      simp only [Option.some.injEq, Prod.mk.injEq] at hsome
      obtain ⟨hbs2, hrest2⟩ := hsome
      subst hbs2
      subst hrest2
      refine ⟨rest3, ?_, ?_, hwf3⟩
      · show some (b :: bs ++ List.take (n - bs.length) rest.flatten, rest3)
          = some (segs.flatten.take (n + 1), rest3)
        rw [hflat, List.take_succ_cons]
        have hn2 : n = bs.length + (n - bs.length) := by omega
        rw [hn2, List.take_append, Nat.add_sub_cancel_left, List.cons_append]
      · rw [hflat3, hflat, List.drop_succ_cons]
        have hn2 : n = bs.length + (n - bs.length) := by omega
        rw [hn2, List.drop_append, Nat.add_sub_cancel_left]

/-- The occurrence predicate: sep occurs in l as the complete window
starting at index i. -/
def occursAt (l sep : List Nat) (i : Nat) : Prop :=
  (l.drop i).take sep.length = sep

theorem occursAt_add_le (l sep : List Nat) (i : Nat) (hsep : 1 ≤ sep.length)
    (h : occursAt l sep i) : i + sep.length ≤ l.length := by
  rw [occursAt] at h
  have hl := congrArg List.length h
  rw [List.length_take, List.length_drop] at hl
  rcases Nat.le_total sep.length (l.length - i) with hle | hle
  · omega
  · rw [min_eq_right hle] at hl
    omega

theorem occursAt_drop (l sep : List Nat) (d i : Nat) :
    occursAt (l.drop d) sep i ↔ occursAt l sep (d + i) := by
  rw [occursAt, occursAt, List.drop_drop]

theorem occursAt_append_left (l r sep : List Nat) (i : Nat) (hsep : 1 ≤ sep.length)
    (h : occursAt l sep i) : occursAt (l ++ r) sep i := by
  have hle := occursAt_add_le l sep i hsep h
  rw [occursAt] at h ⊢
  rw [List.drop_append_of_le_length (by omega),
      List.take_append_of_le_length (by rw [List.length_drop]; omega)]
  exact h

theorem occursAt_of_append (l r sep : List Nat) (i : Nat)
    (hle : i + sep.length ≤ l.length) (h : occursAt (l ++ r) sep i) :
    occursAt l sep i := by
  rw [occursAt] at h ⊢
  rw [List.drop_append_of_le_length (by omega),
      List.take_append_of_le_length (by rw [List.length_drop]; omega)] at h
  exact h

theorem occursAt_cons_succ (a : Nat) (l sep : List Nat) (i : Nat) :
    occursAt (a :: l) sep (i + 1) ↔ occursAt l sep i := by
  rw [occursAt, occursAt, List.drop_succ_cons]

theorem occursAt_zero (l sep : List Nat) :
    occursAt l sep 0 ↔ l.take sep.length = sep := by
  rw [occursAt, List.drop_zero]

theorem window_find_eq_none_iff (sep : List Nat) (hsep : sep ≠ []) (l : List Nat) :
    window_find sep l = none ↔ ∀ i, ¬ occursAt l sep i := by
  induction l with
  | nil =>
    rw [window_find, if_neg hsep]
    constructor
    · intro _ i hocc
      rw [occursAt] at hocc
      simp only [List.drop_nil, List.take_nil] at hocc
      exact hsep hocc.symm
    · intro _
      rfl
  | cons a l ih =>
    rw [window_find]
    by_cases h0 : (a :: l).take sep.length = sep
    · rw [if_pos h0]
      constructor
      · intro hc
        exact absurd hc (by simp)
      · intro hall
        exact absurd ((occursAt_zero (a :: l) sep).mpr h0) (hall 0)
    · rw [if_neg h0]
      constructor
      · intro hm i hocc
        rcases hwl : window_find sep l with _ | j2
        · rcases i with _ | i
          · exact h0 ((occursAt_zero (a :: l) sep).mp hocc)
          · exact (ih.mp hwl) i ((occursAt_cons_succ a l sep i).mp hocc)
        · rw [hwl] at hm
          exact absurd hm (by simp)
      · intro hall
        have hl : window_find sep l = none := by
          rw [ih]
          intro i hocc
          exact hall (i + 1) ((occursAt_cons_succ a l sep i).mpr hocc)
        rw [hl]
        rfl

theorem window_find_eq_some_iff (sep : List Nat) (hsep : sep ≠ []) (l : List Nat)
    (j : Nat) :
    window_find sep l = some j ↔
      occursAt l sep j ∧ ∀ i < j, ¬ occursAt l sep i := by
  induction l generalizing j with
  | nil =>
    rw [window_find, if_neg hsep]
    constructor
    · intro hc
      exact absurd hc (by simp)
    · rintro ⟨hocc, _⟩
      rw [occursAt] at hocc
      simp only [List.drop_nil, List.take_nil] at hocc
      exact absurd hocc.symm hsep
  | cons a l ih =>
    rw [window_find]
    by_cases h0 : (a :: l).take sep.length = sep
    · rw [if_pos h0]
      constructor
      · intro hj
        simp only [Option.some.injEq] at hj
        subst hj
        exact ⟨(occursAt_zero (a :: l) sep).mpr h0, fun i hi => absurd hi (by omega)⟩
      · rintro ⟨hocc, hmin⟩
        rcases j with _ | j
        · rfl
        · exact absurd ((occursAt_zero (a :: l) sep).mpr h0) (hmin 0 (by omega))
    · rw [if_neg h0]
      rcases hwl : window_find sep l with _ | j2
      · have hnone := (window_find_eq_none_iff sep hsep l).mp hwl
        constructor
        · intro hc
          exact absurd hc (by simp)
        · rintro ⟨hocc, _⟩
          rcases j with _ | j
          · exact absurd ((occursAt_zero (a :: l) sep).mp hocc) h0
          · exact absurd ((occursAt_cons_succ a l sep j).mp hocc) (hnone j)
      · obtain ⟨hocc2, hmin2⟩ := (ih j2).mp hwl
        constructor
        · intro hj
          simp only [Option.map_some', Option.some.injEq] at hj
          subst hj
          refine ⟨(occursAt_cons_succ a l sep j2).mpr hocc2, ?_⟩
          intro i hi
          rcases i with _ | i
          · intro hocc
            exact h0 ((occursAt_zero (a :: l) sep).mp hocc)
          · intro hocc
            exact hmin2 i (by omega) ((occursAt_cons_succ a l sep i).mp hocc)
        · rintro ⟨hocc, hmin⟩
          rcases j with _ | j
          · exact absurd ((occursAt_zero (a :: l) sep).mp hocc) h0
          · have hj : window_find sep l = some j := by
              rw [ih]
              refine ⟨(occursAt_cons_succ a l sep j).mp hocc, ?_⟩
              intro i hi hocc2
              exact hmin (i + 1) (by omega) ((occursAt_cons_succ a l sep i).mpr hocc2)
            rw [hwl] at hj
            simp only [Option.some.injEq] at hj
            subst hj
            rfl

theorem window_find_none_of_short (sep l : List Nat) (hl : l.length < sep.length) :
    window_find sep l = none := by
  have hsep : sep ≠ [] := by
    intro e
    rw [e] at hl
    simp at hl
  rw [window_find_eq_none_iff sep hsep]
  intro i hocc
  have hle := occursAt_add_le l sep i (List.length_pos.mpr hsep) hocc
  omega

theorem munch_eof (sep2 pre : List Nat) (segs snd : List (List Nat))
    (h : read_upto 4096 segs = ([], snd)) : munch sep2 pre segs = none := by
  rw [munch.eq_1]
  split
  · rfl
  · rename_i b bs rest hru
    rw [h] at hru
    simp at hru

theorem munch_found (sep2 pre : List Nat) (segs : List (List Nat)) (b : Nat)
    (bs : List Nat) (rest : List (List Nat)) (i : Nat)
    (h : read_upto 4096 segs = (b :: bs, rest))
    (hw : window_find sep2
        ((pre ++ b :: bs).drop (pre.length - (sep2.length - 1))) = some i) :
    munch sep2 pre segs
      = some ((pre ++ b :: bs).take (pre.length - (sep2.length - 1) + i)) := by
  rw [munch.eq_1]
  split
  · rename_i hru
    rw [h] at hru
    simp at hru
  · rename_i b2 bs2 rest2 hru
    rw [h] at hru
    simp only [Prod.mk.injEq, List.cons.injEq] at hru
    obtain ⟨⟨hb, hbs⟩, hrest⟩ := hru
    subst hb
    subst hbs
    subst hrest
    simp only [hw]

theorem munch_next (sep2 pre : List Nat) (segs : List (List Nat)) (b : Nat)
    (bs : List Nat) (rest : List (List Nat))
    (h : read_upto 4096 segs = (b :: bs, rest))
    (hw : window_find sep2
        ((pre ++ b :: bs).drop (pre.length - (sep2.length - 1))) = none) :
    munch sep2 pre segs = munch sep2 (pre ++ b :: bs) rest := by
  rw [munch.eq_1]
  split
  · rename_i hru
    rw [h] at hru
    simp at hru
  · rename_i b2 bs2 rest2 hru
    rw [h] at hru
    simp only [Prod.mk.injEq, List.cons.injEq] at hru
    obtain ⟨⟨hb, hbs⟩, hrest⟩ := hru
    subst hb
    subst hbs
    subst hrest
    simp only [hw]

/-- Correctness of the munch loop: over a well-formed stream, provided the
closing delimiter does not already occur inside the accumulated prefix,
the loop returns everything before the first occurrence of the delimiter
in the whole remaining input, and none when there is no occurrence — in
particular the result depends only on the flat byte sequence, not on the
chunking. -/
theorem munch_eq (sep2 : List Nat) (hsep : 1 ≤ sep2.length) (pre : List Nat)
    (segs : List (List Nat)) (hwf : WFStream segs)
    (hpre : window_find sep2 pre = none) :
    munch sep2 pre segs
      = (window_find sep2 (pre ++ segs.flatten)).map
          (fun j => (pre ++ segs.flatten).take j) := by
  have hne : sep2 ≠ [] := by
    intro e
    rw [e] at hsep
    simp at hsep
  revert hwf hpre
  induction pre, segs using munch.induct sep2 with
  | case1 pre segs snd h =>
    intro hwf hpre
    rcases segs with _ | ⟨seg, rest0⟩
    · rw [munch_eof sep2 pre [] snd h]
      simp only [List.flatten_nil, List.append_nil, hpre]
      rfl
    · exact absurd (congrArg Prod.fst h)
        (read_upto_fst_nonempty 4096 seg rest0 hwf (by omega))
  | case2 pre segs b bs rest h ss pre2 i hw0 =>
    intro hwf hpre
    have hw : window_find sep2
        ((pre ++ b :: bs).drop (pre.length - (sep2.length - 1))) = some i := hw0
    have hflat : segs.flatten = b :: (bs ++ rest.flatten) := by
      have hh := read_upto_flatten 4096 segs
      rw [h] at hh
      exact hh
    have hF : pre ++ segs.flatten = (pre ++ b :: bs) ++ rest.flatten := by
      rw [hflat, List.append_assoc]
      rfl
    obtain ⟨hocc, hmin⟩ :=
      (window_find_eq_some_iff sep2 hne
        ((pre ++ b :: bs).drop (pre.length - (sep2.length - 1))) i).mp hw
    have hocc2 : occursAt (pre ++ b :: bs) sep2 (pre.length - (sep2.length - 1) + i) :=
      (occursAt_drop (pre ++ b :: bs) sep2 (pre.length - (sep2.length - 1)) i).mp hocc
    have hlen2 := occursAt_add_le (pre ++ b :: bs) sep2
      (pre.length - (sep2.length - 1) + i) hsep hocc2
    have hoccF : occursAt (pre ++ segs.flatten) sep2
        (pre.length - (sep2.length - 1) + i) := by
      rw [hF]
      exact occursAt_append_left (pre ++ b :: bs) rest.flatten sep2 _ hsep hocc2
    have hminF : ∀ k < pre.length - (sep2.length - 1) + i,
        ¬ occursAt (pre ++ segs.flatten) sep2 k := by
      intro k hk hocck
      rw [hF] at hocck
      have hocc2k : occursAt (pre ++ b :: bs) sep2 k :=
        occursAt_of_append (pre ++ b :: bs) rest.flatten sep2 k (by omega) hocck
      by_cases hkS : k < pre.length - (sep2.length - 1)
      · have hkpre : k + sep2.length ≤ pre.length := by omega
        have hocc3 : occursAt pre sep2 k :=
          occursAt_of_append pre (b :: bs) sep2 k hkpre hocc2k
        exact (window_find_eq_none_iff sep2 hne pre).mp hpre k hocc3
      · have hocc4 : occursAt
            ((pre ++ b :: bs).drop (pre.length - (sep2.length - 1))) sep2
            (k - (pre.length - (sep2.length - 1))) := by
          rw [occursAt_drop]
          rwa [show pre.length - (sep2.length - 1)
              + (k - (pre.length - (sep2.length - 1))) = k by omega]
        exact hmin (k - (pre.length - (sep2.length - 1))) (by omega) hocc4
    have hwF : window_find sep2 (pre ++ segs.flatten)
        = some (pre.length - (sep2.length - 1) + i) :=
      (window_find_eq_some_iff sep2 hne (pre ++ segs.flatten) _).mpr ⟨hoccF, hminF⟩
    have htk : ((pre ++ b :: bs) ++ rest.flatten).take
          (pre.length - (sep2.length - 1) + i)
        = (pre ++ b :: bs).take (pre.length - (sep2.length - 1) + i) :=
      List.take_append_of_le_length (by omega)
    rw [munch_found sep2 pre segs b bs rest i h hw, hwF]
    simp only [Option.map_some']
    rw [hF, htk]
  | case3 pre segs b bs rest h ss pre2 hw0 ih0 =>
    intro hwf hpre
    have hw : window_find sep2
        ((pre ++ b :: bs).drop (pre.length - (sep2.length - 1))) = none := hw0
    have ih : WFStream rest → window_find sep2 (pre ++ b :: bs) = none →
        munch sep2 (pre ++ b :: bs) rest
          = (window_find sep2 ((pre ++ b :: bs) ++ rest.flatten)).map
              (fun j => ((pre ++ b :: bs) ++ rest.flatten).take j) := ih0
    have hflat : segs.flatten = b :: (bs ++ rest.flatten) := by
      have hh := read_upto_flatten 4096 segs
      rw [h] at hh
      exact hh
    have hF : pre ++ segs.flatten = (pre ++ b :: bs) ++ rest.flatten := by
      rw [hflat, List.append_assoc]
      rfl
    have hwfr : WFStream rest := by
      have hh := read_upto_wf 4096 segs hwf
      rw [h] at hh
      exact hh
    have hpre2 : window_find sep2 (pre ++ b :: bs) = none := by
      rw [window_find_eq_none_iff sep2 hne]
      intro k hocck
      have hklen := occursAt_add_le (pre ++ b :: bs) sep2 k hsep hocck
      by_cases hkS : k < pre.length - (sep2.length - 1)
      · have hkpre : k + sep2.length ≤ pre.length := by omega
        have hocc3 : occursAt pre sep2 k :=
          occursAt_of_append pre (b :: bs) sep2 k hkpre hocck
        exact (window_find_eq_none_iff sep2 hne pre).mp hpre k hocc3
      · have hocc4 : occursAt
            ((pre ++ b :: bs).drop (pre.length - (sep2.length - 1))) sep2
            (k - (pre.length - (sep2.length - 1))) := by
          rw [occursAt_drop]
          rwa [show pre.length - (sep2.length - 1)
              + (k - (pre.length - (sep2.length - 1))) = k by omega]
        exact (window_find_eq_none_iff sep2 hne _).mp hw
          (k - (pre.length - (sep2.length - 1))) hocc4
    rw [munch_next sep2 pre segs b bs rest h hw, ih hwfr hpre2, hF]

/-- The chunked extractor computes the pure function of the flat byte
sequence: the result does not depend on how the stream is chunked. -/
theorem read_md_preamble_eq_pure (parse : List Nat → Except Err Yaml)
    (segs : List (List Nat)) (hwf : WFStream segs) :
    read_md_preamble parse segs = read_md_preamble_pure parse segs.flatten := by
  rw [read_md_preamble, read_md_preamble_pure]
  by_cases hlen : segs.flatten.length < 5
  · rw [(read_exact_spec 5 segs hwf).1 hlen, if_pos hlen]
  · obtain ⟨rest, heq, hflatr, hwfr⟩ := (read_exact_spec 5 segs hwf).2 (by omega)
    rw [heq, if_neg hlen]
    dsimp only
    rcases hfind : separators.find?
        (fun p => p.1.isPrefixOf (segs.flatten.take 5)) with _ | ⟨sep1, sep2⟩
    · rw [hfind]
    · rw [hfind]
      dsimp only
      have hmem := List.mem_of_find?_eq_some hfind
      have hseplen : (4 ≤ sep1.length ∧ sep1.length ≤ 5) ∧ 5 ≤ sep2.length := by
        simp only [separators, List.mem_cons, List.mem_singleton,
                   Prod.mk.injEq, List.not_mem_nil, or_false] at hmem
        rcases hmem with ⟨h1, h2⟩ | ⟨h1, h2⟩ | ⟨h1, h2⟩
        all_goals subst h1
        all_goals subst h2
        all_goals simp
      have hpre0len : ((segs.flatten.take 5).drop sep1.length).length
          < sep2.length := by
        rw [List.length_drop, List.length_take, Nat.min_eq_left (by omega)]
        omega
      have hmun := munch_eq sep2 (by omega)
        ((segs.flatten.take 5).drop sep1.length) rest hwfr
        (window_find_none_of_short sep2 _ hpre0len)
      have hsplit : (segs.flatten.take 5).drop sep1.length ++ segs.flatten.drop 5
          = segs.flatten.drop sep1.length := by
        conv_rhs => rw [← List.take_append_drop 5 segs.flatten]
        rw [List.drop_append_of_le_length
          (by rw [List.length_take]; omega)]
      rw [hflatr, hsplit] at hmun
      rw [hmun]
      rcases hwfind : window_find sep2 (segs.flatten.drop sep1.length) with _ | j
      · rfl
      · rfl

/-- C6: the extractor's result is independent of how the same byte
sequence is split into chunks by the reader: two well-formed streams with
equal flat contents produce the same result, in particular a closing
delimiter straddling a chunk boundary is still found. -/
theorem C6_result_independent_of_chunking (parse : List Nat → Except Err Yaml)
    (segs1 segs2 : List (List Nat)) (h1 : WFStream segs1) (h2 : WFStream segs2)
    (heq : segs1.flatten = segs2.flatten) :
    read_md_preamble parse segs1 = read_md_preamble parse segs2 := by
  rw [read_md_preamble_eq_pure parse segs1 h1,
      read_md_preamble_eq_pure parse segs2 h2, heq]

/-- C6 witness: one single-chunk stream against a three-chunk stream of
the same bytes whose closing delimiter straddles the last chunk boundary. -/
theorem C6_result_independent_of_chunking_witness :
    read_md_preamble (fun _ => .ok Yaml.null)
        [[45, 45, 45, 10, 107, 58, 32, 118, 10, 45, 45, 45, 10, 98]]
      = read_md_preamble (fun _ => .ok Yaml.null)
        [[45, 45, 45, 10, 107], [58, 32, 118, 10, 45], [45, 45, 10, 98]] :=
  C6_result_independent_of_chunking (fun _ => .ok Yaml.null)
    [[45, 45, 45, 10, 107, 58, 32, 118, 10, 45, 45, 45, 10, 98]]
    [[45, 45, 45, 10, 107], [58, 32, 118, 10, 45], [45, 45, 10, 98]]
    (by unfold WFStream; decide) (by unfold WFStream; decide) (by decide)

/-- C5: a stream shorter than the 5-byte lookahead, a stream whose
lookahead starts with none of the three opening delimiters, and a stream
whose opening delimiter is never followed by the matching closing
delimiter all yield Ok none, not an error. -/
theorem C5_no_block_not_an_error (parse : List Nat → Except Err Yaml)
    (segs : List (List Nat)) (hwf : WFStream segs) :
    (segs.flatten.length < 5 → read_md_preamble parse segs = .ok none)
    ∧ ((∀ p ∈ separators, p.1.isPrefixOf (segs.flatten.take 5) = false)
        → read_md_preamble parse segs = .ok none)
    ∧ (∀ sep1 sep2,
        separators.find? (fun p => p.1.isPrefixOf (segs.flatten.take 5))
          = some (sep1, sep2)
        → window_find sep2 (segs.flatten.drop sep1.length) = none
        → read_md_preamble parse segs = .ok none) := by
  rw [read_md_preamble_eq_pure parse segs hwf]
  refine ⟨?_, ?_, ?_⟩
  · intro h
    rw [read_md_preamble_pure, if_pos h]
  · intro h
    rw [read_md_preamble_pure]
    by_cases hlen : segs.flatten.length < 5
    · rw [if_pos hlen]
    · rw [if_neg hlen]
      have hnone : separators.find?
          (fun p => p.1.isPrefixOf (segs.flatten.take 5)) = none := by
        rw [List.find?_eq_none]
        intro p hp
        simp [h p hp]
      rw [hnone]
  · intro sep1 sep2 hfind hwnone
    rw [read_md_preamble_pure]
    by_cases hlen : segs.flatten.length < 5
    · rw [if_pos hlen]
    · rw [if_neg hlen, hfind]
      dsimp only
      rw [hwnone]

/-- C5 witness: a 2-byte stream, a stream with no recognized delimiter,
and a stream whose opening delimiter reaches end of input before the
closing delimiter, all three giving Ok none. -/
theorem C5_no_block_not_an_error_witness :
    read_md_preamble (fun _ => .error "x") [[110, 111]] = .ok none
    ∧ read_md_preamble (fun _ => .error "x") [[110, 111, 112, 113, 114, 115]] = .ok none
    ∧ read_md_preamble (fun _ => .error "x") [[45, 45, 45, 10, 107, 58]] = .ok none := by
  refine ⟨?_, ?_, ?_⟩
  · exact (C5_no_block_not_an_error (fun _ => .error "x") [[110, 111]]
      (by unfold WFStream; decide)).1 (by decide)
  · exact (C5_no_block_not_an_error (fun _ => .error "x")
      [[110, 111, 112, 113, 114, 115]] (by unfold WFStream; decide)).2.1 (by decide)
  · exact (C5_no_block_not_an_error (fun _ => .error "x")
      [[45, 45, 45, 10, 107, 58]] (by unfold WFStream; decide)).2.2
      [45, 45, 45, 10] [10, 45, 45, 45, 10] (by decide) (by decide)

/-- C4: for any stream whose bytes are the newline-style opening
delimiter, then text accepted by the metadata parser, then the matching
closing delimiter, then an arbitrary body, the extractor returns exactly
the parse of that text, for every chunking and every body.  The
hypothesis hfirst states that the first closing-delimiter occurrence is
the explicit one — the property YAML validity gives the text, since a
line starting with three dashes inside it would be a document marker and
the parser accepts only a single document. -/
theorem C4_preamble_roundtrip (parse : List Nat → Except Err Yaml) (y : Yaml)
    (text body : List Nat) (segs : List (List Nat)) (hwf : WFStream segs)
    (hcontent : segs.flatten = [45, 45, 45, 10] ++ text ++ [10, 45, 45, 45, 10] ++ body)
    (hparse : parse text = .ok y)
    (hfirst : window_find [10, 45, 45, 45, 10] (text ++ [10, 45, 45, 45, 10] ++ body)
        = some text.length) :
    read_md_preamble parse segs = .ok (some y) := by
  rw [read_md_preamble_eq_pure parse segs hwf, hcontent, read_md_preamble_pure]
  simp only [List.append_assoc] at hfirst ⊢
  have hlen : ¬ ([45, 45, 45, 10] ++ (text ++ ([10, 45, 45, 45, 10] ++ body))).length < 5 := by
    rw [Nat.not_lt]
    simp only [List.length_append, List.length_cons, List.length_nil]
    omega
  have hr : ∃ c r', text ++ ([10, 45, 45, 45, 10] ++ body) = c :: r' := by
    rcases text with _ | ⟨c, t'⟩
    · exact ⟨10, _, rfl⟩
    · exact ⟨c, _, rfl⟩
  obtain ⟨c, r', hr⟩ := hr
  have hfind : separators.find?
      (fun p => p.1.isPrefixOf
        (([45, 45, 45, 10] ++ (text ++ ([10, 45, 45, 45, 10] ++ body))).take 5))
      = some ([45, 45, 45, 10], [10, 45, 45, 45, 10]) := by
    have htake : ([45, 45, 45, 10] ++ (text ++ ([10, 45, 45, 45, 10] ++ body))).take 5
        = [45, 45, 45, 10, c] := by
      rw [hr]
      rfl
    rw [htake]
    simp [separators, List.find?, List.isPrefixOf]
  rw [if_neg hlen, hfind]
  dsimp only
  rw [List.drop_left, hfirst]
  dsimp only
  rw [List.take_left, hparse]
  rfl

/-- C4 witness: the preamble k: v between newline-style delimiters and a
one-byte body, delivered in two chunks splitting the text, parses to the
expected value. -/
theorem C4_preamble_roundtrip_witness :
    read_md_preamble
        (fun bs => if bs = [107, 58, 32, 118] then .ok (.string "kv") else .error "bad")
        [[45, 45, 45, 10, 107, 58], [32, 118, 10, 45, 45, 45, 10, 98]]
      = .ok (some (.string "kv")) :=
  C4_preamble_roundtrip
    (fun bs => if bs = [107, 58, 32, 118] then .ok (.string "kv") else .error "bad")
    (.string "kv") [107, 58, 32, 118] [98]
    [[45, 45, 45, 10, 107, 58], [32, 118, 10, 45, 45, 45, 10, 98]]
    (by unfold WFStream; decide) (by decide) (by rfl) (by decide)

/-!
## C7: criterion parsing
-/

theorem stripSfx_append (p s : List Char) : stripSfx p (s ++ p) = some s := by
  rw [stripSfx]
  have hsuf : p.isSuffixOf (s ++ p) = true := by
    simp [List.isSuffixOf_iff_suffix]
  rw [if_pos hsuf, List.length_append, Nat.add_sub_cancel,
      List.take_left]

theorem slashWrap_wrapped (inner : List Char) :
    slashWrap ('/' :: (inner ++ ['/'])) = some inner := by
  rw [slashWrap]
  have h1 : stripPfx ['/'] ('/' :: (inner ++ ['/'])) = some (inner ++ ['/']) := by
    rw [stripPfx]
    have hp : (['/'].isPrefixOf ('/' :: (inner ++ ['/']))) = true := by
      simp [List.isPrefixOf]
    rw [hp]
    rfl
  rw [h1]
  exact stripSfx_append ['/'] inner

theorem stripPfx_single_none (c : Char) (s : List Char) (h : s.head? ≠ some c) :
    stripPfx [c] s = none := by
  rw [stripPfx]
  rcases s with _ | ⟨a, s'⟩
  · rfl
  · have hca : (c == a) = false := by
      rw [beq_eq_false_iff_ne]
      intro e
      exact h (by rw [List.head?_cons, e])
    have : ([c].isPrefixOf (a :: s')) = false := by
      show ((c == a) && List.isPrefixOf [] s') = false
      rw [hca]
      rfl
    rw [this]
    rfl

theorem findIdx_colon (key value : List Char) (hk : ':' ∉ key) (i : Nat) :
    (key ++ ':' :: value).findIdx? (· = ':') i = some (i + key.length) := by
  induction key generalizing i with
  | nil => simp [List.findIdx?_cons]
  | cons a key ih =>
    rw [List.cons_append, List.findIdx?_cons]
    have ha : a ≠ ':' := fun e => hk (by rw [e]; exact List.mem_cons_self ..)
    rw [if_neg (by simp [ha]), ih (fun e => hk (List.mem_cons_of_mem a e)) (i + 1)]
    simp only [List.length_cons]
    rw [Option.some.injEq]
    omega

/-- The parser body after the optional negation prefix has been split off
(structuring device for the proofs below; definitionally the tail of
criterion_from_str). -/
def criterion_tail (negate : Bool) (s : List Char) : Except Err Criterion :=
  match slashWrap s with
  | some inner => .ok (.simple negate (.nameRegex inner))
  | none =>
    if s.head? = some '=' then
      .error "`=EXPRESSION` syntax is not implemented"
    else
      match s.findIdx? (· = ':') with
      | some i =>
        let key := s.take i
        let value := s.drop (i + 1)
        if value.head? = some '<' ∨ value.head? = some '>' then
          .error "Unimplemented syntax"
        else
          match slashWrap value with
          | some inner => .ok (.simple negate (.metaRegex key inner))
          | none => .ok (.simple negate (.metaEq key value))
      | none =>
        if negate then .error "Smart name search cannot be used with negation"
        else .ok (.nameSmart s)

theorem criterion_from_str_eq_tail (tok : List Char) :
    criterion_from_str tok
      = match stripPfx ['!'] tok with
        | some s2 => criterion_tail true s2
        | none => criterion_tail false tok := by
  cases h : stripPfx ['!'] tok
  all_goals simp only [criterion_from_str, criterion_tail, h]

theorem stripPfx_bang (xs : List Char) : stripPfx ['!'] ('!' :: xs) = some xs := by
  rw [stripPfx]
  have hp : (['!'].isPrefixOf ('!' :: xs)) = true := by
    simp [List.isPrefixOf]
  rw [hp]
  rfl

theorem head_ne_of_ne (c d : Char) (hc : c ≠ d) (xs : List Char) :
    (c :: xs).head? ≠ some d := by
  rw [List.head?_cons]
  intro e
  injection e with e2
  exact hc e2

theorem slashWrap_none_of_head (c : Char) (s : List Char) (hc : c ≠ '/')
    (h : s.head? = some c) : slashWrap s = none := by
  have h2 : s.head? ≠ some '/' := by
    rw [h]
    intro e
    injection e with e2
    exact hc e2
  rw [slashWrap, stripPfx_single_none '/' s h2]
  rfl

theorem criterion_tail_slash (ng : Bool) (inner : List Char) :
    criterion_tail ng ('/' :: (inner ++ ['/']))
      = .ok (.simple ng (.nameRegex inner)) := by
  rw [criterion_tail, slashWrap_wrapped]

theorem criterion_tail_eqsign (ng : Bool) (rest : List Char) :
    criterion_tail ng ('=' :: rest)
      = .error "`=EXPRESSION` syntax is not implemented" := by
  rw [criterion_tail, slashWrap_none_of_head '=' ('=' :: rest) (by decide) rfl]
  dsimp only
  rw [if_pos (show ('=' :: rest).head? = some '=' from rfl)]

theorem criterion_tail_colon (ng : Bool) (key value : List Char) (hk : ':' ∉ key)
    (hw : slashWrap (key ++ ':' :: value) = none)
    (he : (key ++ ':' :: value).head? ≠ some '=') :
    criterion_tail ng (key ++ ':' :: value)
      = if value.head? = some '<' ∨ value.head? = some '>'
        then .error "Unimplemented syntax"
        else match slashWrap value with
          | some vin => .ok (.simple ng (.metaRegex key vin))
          | none => .ok (.simple ng (.metaEq key value)) := by
  rw [criterion_tail, hw]
  dsimp only
  rw [if_neg he, findIdx_colon key value hk 0]
  dsimp only
  rw [Nat.zero_add, List.take_left, List.drop_append 1]
  simp only [List.drop_succ_cons, List.drop_zero]

theorem criterion_tail_smart (ng : Bool) (s : List Char)
    (hw : slashWrap s = none) (he : s.head? ≠ some '=') (hc : ':' ∉ s) :
    criterion_tail ng s
      = if ng then .error "Smart name search cannot be used with negation"
        else .ok (.nameSmart s) := by
  rw [criterion_tail, hw]
  dsimp only
  rw [if_neg he]
  have hf : s.findIdx? (· = ':') = none := by
    rw [List.findIdx?_eq_none_iff]
    intro a ha
    rw [decide_eq_false_iff_not]
    intro e
    subst e
    exact hc ha
  rw [hf]

/-- C7: the criterion parser maps a slash-wrapped token to NameRegex of
the inner text; a leading equals sign (after the optional bang) is a
parse error; a token containing a colon splits at the first colon into
key and value, rejecting values led by an angle bracket, and yields
MetaRegex for a slash-wrapped value and MetaEq otherwise; everything else
is a smart-name term, which rejects the bang prefix; on the three simple
forms the bang records negation. -/
theorem C7_criterion_parsing (inner rest key value s : List Char) :
    criterion_from_str ('/' :: (inner ++ ['/'])) = .ok (.simple false (.nameRegex inner))
    ∧ criterion_from_str ('!' :: '/' :: (inner ++ ['/']))
        = .ok (.simple true (.nameRegex inner))
    ∧ criterion_from_str ('=' :: rest) = .error "`=EXPRESSION` syntax is not implemented"
    ∧ criterion_from_str ('!' :: '=' :: rest)
        = .error "`=EXPRESSION` syntax is not implemented"
    ∧ (':' ∉ key → slashWrap (key ++ ':' :: value) = none
        → (key ++ ':' :: value).head? ≠ some '='
        → (((key ++ ':' :: value).head? ≠ some '!' →
             criterion_from_str (key ++ ':' :: value)
               = if value.head? = some '<' ∨ value.head? = some '>'
                 then .error "Unimplemented syntax"
                 else match slashWrap value with
                   | some vin => .ok (.simple false (.metaRegex key vin))
                   | none => .ok (.simple false (.metaEq key value)))
           ∧ criterion_from_str ('!' :: (key ++ ':' :: value))
               = if value.head? = some '<' ∨ value.head? = some '>'
                 then .error "Unimplemented syntax"
                 else match slashWrap value with
                   | some vin => .ok (.simple true (.metaRegex key vin))
                   | none => .ok (.simple true (.metaEq key value))))
    ∧ (slashWrap s = none → s.head? ≠ some '=' → ':' ∉ s →
        (s.head? ≠ some '!' → criterion_from_str s = .ok (.nameSmart s))
        ∧ criterion_from_str ('!' :: s)
            = .error "Smart name search cannot be used with negation") := by
  refine ⟨?_, ?_, ?_, ?_, ?_, ?_⟩
  · rw [criterion_from_str_eq_tail,
        stripPfx_single_none '!' ('/' :: (inner ++ ['/']))
          (head_ne_of_ne '/' '!' (by decide) _)]
    exact criterion_tail_slash false inner
  · rw [criterion_from_str_eq_tail, stripPfx_bang ('/' :: (inner ++ ['/']))]
    exact criterion_tail_slash true inner
  · rw [criterion_from_str_eq_tail,
        stripPfx_single_none '!' ('=' :: rest)
          (head_ne_of_ne '=' '!' (by decide) _)]
    exact criterion_tail_eqsign false rest
  · rw [criterion_from_str_eq_tail, stripPfx_bang ('=' :: rest)]
    exact criterion_tail_eqsign true rest
  · intro hk hw he
    constructor
    · intro hbang
      rw [criterion_from_str_eq_tail,
          stripPfx_single_none '!' (key ++ ':' :: value) hbang]
      exact criterion_tail_colon false key value hk hw he
    · rw [criterion_from_str_eq_tail, stripPfx_bang (key ++ ':' :: value)]
      exact criterion_tail_colon true key value hk hw he
  · intro hw he hc
    constructor
    · intro hbang
      rw [criterion_from_str_eq_tail, stripPfx_single_none '!' s hbang]
      exact criterion_tail_smart false s hw he hc
    · rw [criterion_from_str_eq_tail, stripPfx_bang s]
      exact criterion_tail_smart true s hw he hc

/-- C7 witness: the parsing examples from the specification. -/
theorem C7_criterion_parsing_witness :
    criterion_from_str "foo".toList = .ok (.nameSmart "foo".toList)
    ∧ criterion_from_str "!foo".toList
        = .error "Smart name search cannot be used with negation"
    ∧ criterion_from_str "tag:work".toList
        = .ok (.simple false (.metaEq "tag".toList "work".toList))
    ∧ criterion_from_str "!tag:work".toList
        = .ok (.simple true (.metaEq "tag".toList "work".toList))
    ∧ criterion_from_str "path:/foo/".toList
        = .ok (.simple false (.metaRegex "path".toList "foo".toList))
    ∧ criterion_from_str "size:>10".toList = .error "Unimplemented syntax"
    ∧ criterion_from_str "/^a.*/".toList
        = .ok (.simple false (.nameRegex "^a.*".toList))
    ∧ criterion_from_str "=1+1".toList
        = .error "`=EXPRESSION` syntax is not implemented" := by
  refine ⟨?_, ?_, ?_, ?_, ?_, ?_, ?_, ?_⟩
  · exact ((C7_criterion_parsing [] [] [] [] "foo".toList).2.2.2.2.2
      (by decide) (by decide) (by decide)).1 (by decide)
  · exact ((C7_criterion_parsing [] [] [] [] "foo".toList).2.2.2.2.2
      (by decide) (by decide) (by decide)).2
  · exact (((C7_criterion_parsing [] [] "tag".toList "work".toList []).2.2.2.2.1
      (by decide) (by decide) (by decide)).1 (by decide)).trans rfl
  · exact (((C7_criterion_parsing [] [] "tag".toList "work".toList []).2.2.2.2.1
      (by decide) (by decide) (by decide)).2).trans rfl
  · exact (((C7_criterion_parsing [] [] "path".toList "/foo/".toList []).2.2.2.2.1
      (by decide) (by decide) (by decide)).1 (by decide)).trans rfl
  · exact (((C7_criterion_parsing [] [] "size".toList ">10".toList []).2.2.2.2.1
      (by decide) (by decide) (by decide)).1 (by decide)).trans rfl
  · exact (C7_criterion_parsing "^a.*".toList [] [] [] []).1
  · exact (C7_criterion_parsing [] "1+1".toList [] [] []).2.2.1
